import Mathlib

/-!
Verification development for the domain-filter application (src/app.py).

The Python source is shallowly embedded below.  Strings are modelled through
their character lists (String.data); Python sets are modelled as lists with
membership; Python floats (the vowel-ratio bounds) are modelled as exact
rationals; byte blobs are modelled as their decoded text (the UTF-8 decode
with ignored errors happens before the modelled core runs).  The optional
tldextract resolver is an external library that is absent from the
repository, so get_sld_and_tld embeds the fallback branch of the source
(naive last-dot splitting), which is the branch written in app.py itself.
Python str.isalpha and str.lower are modelled on ASCII, matching the data
model of the spec (labels are restricted to the character set a-z and
hyphen).  The RFC-4180 CSV reader used for .csv items is Python standard
library code, not repository code; it is abstracted as an explicit
row-extraction parameter csvRows.
-/

namespace DomainFilter

/-! ### Character and string helpers -/

def VOWELS : List Char := ['a', 'e', 'i', 'o', 'u', 'y']

def isVowel (c : Char) : Bool := VOWELS.contains c

def isCons (c : Char) : Bool := !(isVowel c)

def lowerList (l : List Char) : List Char := l.map Char.toLower

def lowerStr (s : String) : String := String.mk (lowerList s.data)

def isSpace (c : Char) : Bool := c.isWhitespace

/-- Python str.strip on a character list (whitespace at both ends). -/
def trimList (l : List Char) : List Char :=
  ((l.dropWhile isSpace).reverse.dropWhile isSpace).reverse

def trimStr (s : String) : String := String.mk (trimList s.data)

/-- Python str.split(sep) on a character list: always at least one part. -/
def splitOnChar (sep : Char) : List Char → List (List Char)
  | [] => [[]]
  | c :: t =>
    if c = sep then [] :: splitOnChar sep t
    else
      match splitOnChar sep t with
      | [] => [[c]]
      | h :: r => (c :: h) :: r

/-- Python str.splitlines, modelled for newline-delimited text
(a trailing newline does not produce a final empty line). -/
def splitlines (l : List Char) : List (List Char) :=
  let parts := splitOnChar '\n' l
  if parts.getLast? = some [] then parts.dropLast else parts

/-! ### Domain parsing: get_sld_and_tld (app.py lines 27-50, fallback branch) -/

/-- re.sub of a leading http:// or https:// scheme. -/
def strip_scheme (l : List Char) : List Char :=
  if l.take 7 = ("http://").data then l.drop 7
  else if l.take 8 = ("https://").data then l.drop 8
  else l

/-- Removal of a leading www. as in the source. -/
def strip_www (l : List Char) : List Char :=
  if l.take 4 = ("www.").data then l.drop 4 else l

/-- Characters kept by the label sanitizer re.sub r"[^a-z\-]". -/
def keep_label_char (c : Char) : Bool :=
  (decide ('a' ≤ c) && decide (c ≤ 'z')) || decide (c = '-')

/-- get_sld_and_tld: strip/lower/unquote, strip scheme and www., split on
dots, take the last part as tld and the second-to-last as sld, sanitize the
sld, and fail when the cleaned sld or the tld is empty. -/
def get_sld_and_tld (domain : String) : Option (String × String) :=
  let d := (lowerList (trimList domain.data)).filter (fun c => !(decide (c = '"')))
  let d := strip_www (strip_scheme d)
  let parts := splitOnChar '.' d
  match parts.reverse with
  | tld :: sld :: _ =>
    let sld_clean := sld.filter keep_label_char
    if sld_clean = [] ∨ tld = [] then none
    else some (String.mk sld_clean, String.mk tld)
  | _ => none

/-! ### Match modes (app.py lines 53-79) -/

/-- is_exact_word: a single dictionary word, no hyphen. -/
def is_exact_word (sld : String) (word_set : List String) : Bool :=
  if sld = "" ∨ '-' ∈ sld.data then false
  else decide (sld ∈ word_set)

/-- The hyphen branch of is_valid_english_combo: at least two non-empty
hyphen-separated parts, each a dictionary word. -/
def hyphen_combo_ok (sld : String) (word_set : List String) : Bool :=
  let parts := (splitOnChar '-' sld.data).filter (fun p => !(p.isEmpty))
  decide (2 ≤ parts.length) && parts.all (fun p => decide (String.mk p ∈ word_set))

/-- is_valid_english_combo: one word, a hyphen combo, or a two-word
concatenation with the split index ranging over range(3, len(sld) - 2). -/
def is_valid_english_combo (sld : String) (word_set : List String) : Bool :=
  if sld = "" then false
  else if sld ∈ word_set then true
  else if '-' ∈ sld.data ∧ hyphen_combo_ok sld word_set = true then true
  else
    (List.range' 3 (sld.length - 2 - 3)).any fun i =>
      decide (String.mk (sld.data.take i) ∈ word_set) &&
      decide (String.mk (sld.data.drop i) ∈ word_set)

/-! ### Brandables constants (app.py lines 214-243) -/

/-- Module-level default list of full consonant/vowel patterns offered in the
UI multiselect (app.py lines 218-233). -/
def DEFAULT_ALLOWED_RUN_PATTERNS : List String :=
  ["CVCV", "CVVC", "VCCV", "VCVC",
   "CVCVC", "CVCCV", "CVCVV", "VCVCV", "VCCVC",
   "CVCVCV", "CVCVVC", "CVCCVC", "CVCCVV", "VCVCVC", "VCCVCV",
   "CVCVCVC", "CVCVVCV", "CVCVCVV", "CVCCVCV", "CVCCVVC", "VCCVCVC",
   "CVCVCVCV", "CVCVCVVC", "CVCVVCVC", "CVCCVCVC", "CVCCVVCV", "VCCVCVCV"]

def RARE_LETTERS : List Char := ['q', 'x', 'z', 'j']

def DISALLOW_START : List Char := ['q', 'x']

def DISALLOW_END : List Char := ['q', 'x']

def BAD_BIGRAMS : List String :=
  ["qx", "xq", "qj", "jq", "qz", "zq",
   "wx", "xw", "vj", "jv", "zx", "xz",
   "qh", "qk", "qc", "qg", "qt", "qd", "qb"]

/-- The pattern set of the score bonus inside brandability_score
(app.py lines 342-353, written inline in the source). -/
def RECIPE_PATTERNS : List String :=
  ["CVCV", "CVVC", "VCCV", "VCVC",
   "CVCVC", "CVCCV", "CVCVV", "VCVCV", "VCCVC",
   "CVCVCV", "CVCVVC", "CVCCVC", "CVCCVV", "VCVCVC", "VCCVCV",
   "CVCVCVC", "CVCVVCV", "CVCVCVV", "CVCCVCV", "CVCCVVC", "VCCVCVC",
   "CVCVCVCV", "CVCVCVVC", "CVCVVCVC", "CVCCVCVC", "CVCCVVCV", "VCCVCVCV"]

/-- cv_full_pattern: the full, uncompressed consonant/vowel signature. -/
def cv_full_pattern (s : String) : String :=
  String.mk (s.data.map (fun c => if isVowel c then 'V' else 'C'))

/-! ### Brandables helper checks (app.py lines 245-254 and inline checks) -/

/-- Python str.isalpha (ASCII model): non-empty and all alphabetic. -/
def py_isalpha (s : String) : Bool := !(s.data.isEmpty) && s.data.all Char.isAlpha

/-- Count of rare letters q, x, z, j. -/
def rare_count (l : List Char) : Nat := l.countP (fun c => decide (c ∈ RARE_LETTERS))

/-- Any adjacent pair of characters belonging to BAD_BIGRAMS. -/
def has_bad_bigram : List Char → Bool
  | a :: b :: t => decide (String.mk [a, b] ∈ BAD_BIGRAMS) || has_bad_bigram (b :: t)
  | _ => false

/-- The regex (.)\1\1 : some character occurring three times in a row. -/
def has_triple_repeat : List Char → Bool
  | a :: b :: c :: t => (decide (a = b) && decide (b = c)) || has_triple_repeat (b :: c :: t)
  | _ => false

/-- repeats consecutive copies of the n-character block starting at i. -/
def block_repeated (l : List Char) (i n repeats : Nat) : Bool :=
  decide (i + repeats * n ≤ l.length) &&
  (List.range repeats).all fun k =>
    decide ((l.drop (i + k * n)).take n = (l.drop i).take n)

/-- has_repeated_chunk: the regex (.{n})\1{repeats-1,} searched for every
n in range(chunk_min, min(4, len(s) // repeats) + 1): some block of n
characters repeated repeats times consecutively. -/
def has_repeated_chunk (l : List Char) (chunk_min repeats : Nat) : Bool :=
  (List.range' chunk_min (min 4 (l.length / repeats) + 1 - chunk_min)).any fun n =>
    (List.range (l.length + 1)).any fun i => block_repeated l i n repeats

/-! ### Consonant runs (the regexes at app.py lines 331-334) -/

/-- Length of the leading run of non-vowel characters. -/
def leadRun : List Char → Nat
  | [] => 0
  | c :: t => if isCons c then leadRun t + 1 else 0

/-- The regex search for n or more consecutive non-vowel characters: at some
suffix position, at least n non-vowels follow. -/
def hasConsRun : List Char → Nat → Bool
  | [], n => decide (n ≤ 0)
  | c :: t, n => decide (n ≤ leadRun (c :: t)) || hasConsRun t n

/-- app.py lines 329-334: minus 30 for a run longer than max_run, else
minus 12 for a run reaching max_run, else nothing. -/
def consonant_run_penalty (l : List Char) (max_run : Nat) : Int :=
  if hasConsRun l (max_run + 1) then -30
  else if hasConsRun l max_run then -12
  else 0

/-! ### Remaining score terms (app.py lines 306-356) -/

def length_bonus (n : Nat) : Int :=
  if 5 ≤ n ∧ n ≤ 9 then 12
  else if 4 ≤ n ∧ n ≤ 11 then 6
  else -8

/-- Vowel-ratio term with the rationals standing for the Python floats. -/
def vowel_ratio_term (l : List Char) (vmin vmax : ℚ) : Int :=
  let vcount : Nat := l.countP isVowel
  let r : ℚ := (vcount : ℚ) / (l.length : ℚ)
  if vmin ≤ r ∧ r ≤ vmax then 25
  else if vmin - 8/100 ≤ r ∧ r ≤ vmax + 8/100 then 10
  else -18

/-- pat contains the segment seg (regex substring search). -/
abbrev containsSeg (seg l : List Char) : Prop :=
  ∃ i ∈ List.range (l.length + 1), (l.drop i).take seg.length = seg

/-- The regexes (CV){4,} and (VC){4,} on the full pattern. -/
def alternation_penalty (pat : List Char) : Int :=
  if containsSeg ("CVCVCVCV").data pat ∨ containsSeg ("VCVCVCVC").data pat then -18
  else 0

/-- Bonus for the inline recipe pattern set; takes no settings, so it is
independent of the user-configurable allowed_run_patterns. -/
def recipe_bonus (run_pat : String) : Int :=
  if run_pat ∈ RECIPE_PATTERNS then 6 else 0

/-! ### Settings and the scorer (app.py lines 256-356, 503-516) -/

/-- The brandability settings bundle built in main(); defaults mirror the UI
defaults.  words is filled in by run_brandables like the source does. -/
structure Settings where
  score_threshold : Int := 20
  min_len : Nat := 4
  max_len : Nat := 8
  vowel_min : ℚ := 33/100
  vowel_max : ℚ := 60/100
  max_consonant_run : Nat := 3
  min_unique_chars : Nat := 5
  reject_repeats : Bool := true
  reject_dictionary_words : Bool := false
  strict_brandables : Bool := true
  max_rare_letters : Nat := 0
  allowed_run_patterns : List String := []
  words : List String := []

/-- The accumulated score of the last phase of brandability_score, in the
order the source adds the terms (run_pat there is cv_full_pattern s). -/
def brandability_accum (s : String) (st : Settings) : Int :=
  length_bonus s.length
  - 10 * (rare_count s.data : Int)
  + vowel_ratio_term s.data st.vowel_min st.vowel_max
  + consonant_run_penalty s.data st.max_consonant_run
  + alternation_penalty (cv_full_pattern s).data
  + recipe_bonus (cv_full_pattern s)

/-- The body of brandability_score after the initial s.lower(): the hard
rejections in source order, the soft allowed_run_patterns rejection, then
the accumulated score. -/
def brandability_core (s : String) (st : Settings) : Int × String :=
  if !(py_isalpha s) then (-999, "")
  else if s.length < st.min_len ∨ st.max_len < s.length then (-999, "")
  else if '-' ∈ s.data then (-999, "")
  else if st.reject_dictionary_words = true ∧ s ∈ st.words then (-999, "")
  else if st.max_rare_letters < rare_count s.data then (-999, "")
  else if st.strict_brandables = true ∧
          (s.data.headD ' ' ∈ DISALLOW_START ∨ s.data.getLastD ' ' ∈ DISALLOW_END)
       then (-999, "")
  else if st.strict_brandables = true ∧ has_bad_bigram s.data = true then (-999, "")
  else if has_triple_repeat s.data = true then (-999, "")
  else if st.reject_repeats = true ∧ has_repeated_chunk s.data 2 3 = true then (-999, "")
  else if s.data.dedup.length < st.min_unique_chars then (-999, "")
  else if st.allowed_run_patterns ≠ [] ∧ cv_full_pattern s ∉ st.allowed_run_patterns then
    (-50, cv_full_pattern s)
  else (brandability_accum s st, cv_full_pattern s)

def brandability_score (s0 : String) (st : Settings) : Int × String :=
  brandability_core (lowerStr s0) st

/-- The disjunction of the hard rejections of brandability_score, in source
order (the strict_brandables item is the two consecutive strict checks). -/
def hard_reject (s0 : String) (st : Settings) : Bool :=
  let s := lowerStr s0
  (!(py_isalpha s)) ||
  decide (s.length < st.min_len ∨ st.max_len < s.length) ||
  decide ('-' ∈ s.data) ||
  (decide (st.reject_dictionary_words = true) && decide (s ∈ st.words)) ||
  decide (st.max_rare_letters < rare_count s.data) ||
  (decide (st.strict_brandables = true) &&
     decide (s.data.headD ' ' ∈ DISALLOW_START ∨ s.data.getLastD ' ' ∈ DISALLOW_END)) ||
  (decide (st.strict_brandables = true) && has_bad_bigram s.data) ||
  has_triple_repeat s.data ||
  (decide (st.reject_repeats = true) && has_repeated_chunk s.data 2 3) ||
  decide (s.data.dedup.length < st.min_unique_chars)

/-! ### Input reading and the batch pipelines (app.py lines 82-103, 139-182,
358-405).  A FileItem carries its decoded text; the stdlib CSV reader is
abstracted as the csvRows parameter. -/

structure FileItem where
  name : String
  suffix : String
  text : String

/-- iter_domains_from_text_bytes on decoded text: CSV items go through the
abstracted row reader and yield the stripped first field of each non-empty
row; other items yield, per non-empty stripped line, the stripped text
before the first comma. -/
def iter_domains_from_text (csvRows : String → List (List String))
    (text : String) (suffix : String) : List String :=
  if lowerStr suffix = ".csv" then
    (csvRows text).filterMap fun row =>
      match row with
      | [] => none
      | f :: _ => some (trimStr f)
  else
    (splitlines text.data).filterMap fun line =>
      let raw := trimList line
      if raw = [] then none
      else some (String.mk (trimList ((splitOnChar ',' raw).headD [])))

/-- The record stream of a run: files in the given order, each file
contributing its records in order. -/
def all_records (csvRows : String → List (List String)) (files : List FileItem) :
    List String :=
  files.flatMap fun fi => iter_domains_from_text csvRows fi.text fi.suffix

/-- The matcher selected by the mode string, as in run_filter. -/
def matcher_ok (words : List String) (mode : String) (sld : String) : Bool :=
  if mode = "exact" then is_exact_word sld words else is_valid_english_combo sld words

structure FilterState where
  results_com : List String
  results_others : List String
  seen : List String

/-- The per-record body of the run_filter loop (app.py lines 162-178). -/
def filter_step (words : List String) (mode : String)
    (st : FilterState) (raw : String) : FilterState :=
  match get_sld_and_tld raw with
  | none => st
  | some (sld, tld) =>
    let full := sld ++ "." ++ tld
    if full ∈ st.seen then st
    else if matcher_ok words mode sld then
      { results_com := if tld = "com" then st.results_com ++ [full] else st.results_com
        results_others := if tld = "com" then st.results_others else st.results_others ++ [full]
        seen := full :: st.seen }
    else st

/-- The state reached by the run_filter scan. -/
def run_filter_state (csvRows : String → List (List String)) (files : List FileItem)
    (words : List String) (mode : String) : FilterState :=
  (all_records csvRows files).foldl (filter_step words mode) ⟨[], [], []⟩

/-- run_filter: stream all records through filter_step and return the
buckets together with the processed record and file counts. -/
def run_filter (csvRows : String → List (List String)) (files : List FileItem)
    (words : List String) (mode : String) :
    List String × List String × Nat × Nat :=
  ((run_filter_state csvRows files words mode).results_com,
   (run_filter_state csvRows files words mode).results_others,
   (all_records csvRows files).length, files.length)

/-- A brandables result record: (domain, score, run pattern). -/
abbrev Item := String × Int × String

structure BrandState where
  results_com : List Item
  results_others : List Item
  seen : List String

/-- The per-record body of the run_brandables loop (app.py lines 380-397). -/
def brand_step (st : Settings) (bs : BrandState) (raw : String) : BrandState :=
  match get_sld_and_tld raw with
  | none => bs
  | some (sld, tld) =>
    let full := sld ++ "." ++ tld
    if full ∈ bs.seen then bs
    else
      let sp := brandability_score sld st
      if sp.1 < st.score_threshold then bs
      else
        { results_com :=
            if tld = "com" then bs.results_com ++ [(full, sp.1, sp.2)] else bs.results_com
          results_others :=
            if tld = "com" then bs.results_others else bs.results_others ++ [(full, sp.1, sp.2)]
          seen := full :: bs.seen }

/-- The state reached by the brandables scan before the final sort (the
words list is stored into the settings the way the source does). -/
def run_brandables_state (csvRows : String → List (List String)) (files : List FileItem)
    (words : List String) (settings : Settings) : BrandState :=
  (all_records csvRows files).foldl (brand_step { settings with words := words }) ⟨[], [], []⟩

/-- Descending-score order on result records. -/
def score_ge (a b : Item) : Prop := b.2.1 ≤ a.2.1

instance : DecidableRel score_ge := fun a b => inferInstanceAs (Decidable (b.2.1 ≤ a.2.1))

instance : IsTotal Item score_ge := ⟨fun a b => le_total b.2.1 a.2.1⟩

instance : IsTrans Item score_ge :=
  ⟨fun _ _ _ h1 h2 => le_trans h2 h1⟩

/-- Python list.sort(key=score, reverse=True) is the stable descending sort
by score; the output of a stable sort is determined by sortedness, the
permutation property, and preservation of the relative order of equal keys,
so the insertion sort below is extensionally the same function. -/
def sort_desc (l : List Item) : List Item := List.insertionSort score_ge l

/-- run_brandables: scan, then sort both buckets best-first. -/
def run_brandables (csvRows : String → List (List String)) (files : List FileItem)
    (words : List String) (settings : Settings) :
    List Item × List Item × Nat × Nat :=
  (sort_desc (run_brandables_state csvRows files words settings).results_com,
   sort_desc (run_brandables_state csvRows files words settings).results_others,
   (all_records csvRows files).length, files.length)

/-! ### Specification-side definitions (written from the wording of the
spec, for the refinement statements; never used inside the embedded code). -/

/-- The admitted stream of a run: records that split successfully and whose
label the configured matcher accepts, as (label, suffix) pairs in stream
order.  Admission does not depend on the dedup state. -/
def admitted_stream (words : List String) (mode : String) (recs : List String) :
    List (String × String) :=
  recs.filterMap fun raw =>
    match get_sld_and_tld raw with
    | none => none
    | some (sld, tld) => if matcher_ok words mode sld then some (sld, tld) else none

def fullOf (p : String × String) : String := p.1 ++ "." ++ p.2

/-- First occurrences: keep each pair whose full domain has not been seen
before it, in stream order (ks is the set of already-seen full domains). -/
def first_seen_by_full : List (String × String) → List String → List (String × String)
  | [], _ => []
  | p :: t, ks =>
    if fullOf p ∈ ks then first_seen_by_full t ks
    else p :: first_seen_by_full t (fullOf p :: ks)

/-- The admitted stream of a brandables run: records that split
successfully and whose label scores at least the threshold, as
(label, suffix) pairs in stream order. -/
def admitted_brand_stream (st : Settings) (recs : List String) :
    List (String × String) :=
  recs.filterMap fun raw =>
    match get_sld_and_tld raw with
    | none => none
    | some (sld, tld) =>
      if (brandability_score sld st).1 < st.score_threshold then none
      else some (sld, tld)

/-- The result record built for an admitted (label, suffix) pair. -/
def brand_item (st : Settings) (p : String × String) : Item :=
  (fullOf p, (brandability_score p.1 st).1, (brandability_score p.1 st).2)

/-- The lengths of the maximal runs of non-vowel characters, in order
(spec-side notion of a consonant run for the claim about the run penalty). -/
def runLengthsAux : List Char → Nat → List Nat
  | [], cur => if cur = 0 then [] else [cur]
  | c :: t, cur =>
    if isCons c then runLengthsAux t (cur + 1)
    else if cur = 0 then runLengthsAux t 0
    else cur :: runLengthsAux t 0

def runLengths (l : List Char) : List Nat := runLengthsAux l 0

/-! ### Concrete inputs used by the closed statements below -/

def c1_file : FileItem :=
  ⟨"domains.txt", ".txt", "sunflower.com\nsunflower.com\nrandom123.net\nSUN.COM"⟩

def c1_words : List String := ["sun", "flower", "sunflower"]

/-- The UI default settings bundle. -/
def settings0 : Settings := {}

/-- Default settings restricted to a single allowed run pattern. -/
def settings_cvcv : Settings := { allowed_run_patterns := ["CVCV"] }

/-- Default settings with a score threshold no score can reach. -/
def settings_high : Settings := { score_threshold := 50 }

def brand_file : FileItem := ⟨"b.txt", ".txt", "nanovian.com\nbrand.net"⟩

end DomainFilter

namespace DomainFilter

/-! ### Claim C1 -/

/-- Claim C1 as stated is false at the given concrete run: in exact mode on
the stated file and dictionary, the .com bucket is not the list
["sun.com", "sunflower.com"] claimed by the spec. -/
theorem c1_counterexample :
    ¬ ((run_filter (fun _ => []) [c1_file] c1_words "exact").1
        = ["sun.com", "sunflower.com"]) := by
  decide

/-- Claim C1 (amended): on the stated file and dictionary, exact mode
produces the .com bucket ["sunflower.com", "sun.com"] — first-seen order,
with the repeat of sunflower.com deduplicated, random123.net excluded
(digits are stripped to "random", which is not in the dictionary), and the
other bucket empty. -/
theorem c1_amended :
    (run_filter (fun _ => []) [c1_file] c1_words "exact").1
      = ["sunflower.com", "sun.com"] ∧
    (run_filter (fun _ => []) [c1_file] c1_words "exact").2.1 = ([] : List String) := by
  decide

/-! ### Claim C2 -/

/-- Claim C2 as stated is false: the built-in recipe pattern set of the
score bonus does not have 24 members. -/
theorem c2_counterexample : RECIPE_PATTERNS.dedup.length ≠ 24 := by decide

/-- Claim C2 (amended): the built-in recipe pattern set of the score bonus
has exactly 27 distinct members, each of length between 4 and 8; the bonus
is computed by recipe_bonus over this fixed list, which takes no settings,
so it is independent of the user-configurable allowed_run_patterns. -/
theorem c2_amended :
    RECIPE_PATTERNS.dedup.length = 27 ∧
    (RECIPE_PATTERNS.all fun p => decide (4 ≤ p.length) && decide (p.length ≤ 8)) = true := by
  decide

/-! ### Claim C8 -/

/-- Claim C8: a label containing a hyphen is always scored (-999, "")
whatever the settings are (in the source it is caught by the isalpha check
before the explicit hyphen check; either way the result is the same). -/
theorem c8_hyphen_rejected (s : String) (st : Settings) (h : '-' ∈ s.data) :
    brandability_score s st = (-999, "") := by
  have h2 : '-' ∈ (lowerStr s).data := by
    have : Char.toLower '-' = '-' := by decide
    exact List.mem_map.mpr ⟨'-', h, this⟩
  have halpha : py_isalpha (lowerStr s) = false := by
    unfold py_isalpha
    have : (lowerStr s).data.all Char.isAlpha = false := by
      rcases Bool.eq_false_or_eq_true ((lowerStr s).data.all Char.isAlpha) with ht | hf
      · exact absurd (List.all_eq_true.mp ht '-' h2) (by decide)
      · exact hf
    simp [this]
  unfold brandability_score brandability_core
  simp [halpha]

theorem c8_hyphen_rejected_witness :
    ('-' ∈ ("a-b" : String).data) ∧ brandability_score "a-b" settings0 = (-999, "") :=
  ⟨by decide, c8_hyphen_rejected "a-b" settings0 (by decide)⟩

/-! ### Claim C10 -/

/-- Claim C10: exact acceptance implies broad acceptance — a label accepted
by is_exact_word is a dictionary word without hyphen, and the first branch
of is_valid_english_combo accepts every dictionary word. -/
theorem c10_exact_implies_broad (s : String) (W : List String)
    (h : is_exact_word s W = true) : is_valid_english_combo s W = true := by
  unfold is_exact_word at h
  split at h
  · exact absurd h (by decide)
  · rename_i hc
    have hmem : s ∈ W := of_decide_eq_true h
    have hne : ¬ s = "" := fun he => hc (Or.inl he)
    unfold is_valid_english_combo
    simp [hne, hmem]

theorem c10_exact_implies_broad_witness :
    is_exact_word "cat" ["cat"] = true ∧ is_valid_english_combo "cat" ["cat"] = true :=
  ⟨by decide, c10_exact_implies_broad "cat" ["cat"] (by decide)⟩

/-! ### Claim C3 -/

/-- Claim C3: for a hyphen-free label that is not itself a dictionary word,
the broad matcher accepts exactly when some split index i with
3 ≤ i ≤ len - 3 cuts the label into two dictionary words; in particular an
accepted label always has such a split with both halves of length at least
3, so no concatenation split with a short half is ever admitted. -/
theorem c3_concat_clause (s : String) (W : List String)
    (h1 : '-' ∉ s.data) (h2 : s ∉ W) :
    (is_valid_english_combo s W = true ↔
      ∃ i, 3 ≤ i ∧ i ≤ s.length - 3 ∧
        String.mk (s.data.take i) ∈ W ∧ String.mk (s.data.drop i) ∈ W) ∧
    (is_valid_english_combo s W = true →
      ∃ i, 3 ≤ i ∧ i ≤ s.length - 3 ∧
        3 ≤ (s.data.take i).length ∧ 3 ≤ (s.data.drop i).length ∧
        String.mk (s.data.take i) ∈ W ∧ String.mk (s.data.drop i) ∈ W) := by
  have hdl : s.data.length = s.length := rfl
  by_cases he : s = ""
  · subst he
    constructor
    · constructor
      · intro h; simp [is_valid_english_combo] at h
      · rintro ⟨i, hi3, hile, -⟩
        have hlen : ("" : String).length = 0 := rfl
        omega
    · intro h; simp [is_valid_english_combo] at h
  · have key : is_valid_english_combo s W =
        ((List.range' 3 (s.length - 2 - 3)).any fun i =>
          decide (String.mk (s.data.take i) ∈ W) &&
          decide (String.mk (s.data.drop i) ∈ W)) := by
      unfold is_valid_english_combo
      rw [if_neg he, if_neg h2, if_neg]
      rintro ⟨hc, -⟩
      exact h1 hc
    have main : is_valid_english_combo s W = true ↔
        ∃ i, 3 ≤ i ∧ i ≤ s.length - 3 ∧
          String.mk (s.data.take i) ∈ W ∧ String.mk (s.data.drop i) ∈ W := by
      rw [key, List.any_eq_true]
      constructor
      · rintro ⟨i, hmem, hp⟩
        rw [List.mem_range'_1] at hmem
        rw [Bool.and_eq_true, decide_eq_true_eq, decide_eq_true_eq] at hp
        exact ⟨i, hmem.1, by omega, hp.1, hp.2⟩
      · rintro ⟨i, hi3, hile, hta, htd⟩
        refine ⟨i, ?_, ?_⟩
        · rw [List.mem_range'_1]
          omega
        · rw [Bool.and_eq_true, decide_eq_true_eq, decide_eq_true_eq]
          exact ⟨hta, htd⟩
    refine ⟨main, fun h => ?_⟩
    obtain ⟨i, hi3, hile, hta, htd⟩ := main.mp h
    refine ⟨i, hi3, hile, ?_, ?_, hta, htd⟩
    · rw [List.length_take]; omega
    · rw [List.length_drop]; omega

theorem c3_concat_clause_witness :
    ('-' ∉ ("catdog" : String).data) ∧ (("catdog" : String) ∉ ["cat", "dog"]) ∧
    (is_valid_english_combo "catdog" ["cat", "dog"] = true ↔
      ∃ i, 3 ≤ i ∧ i ≤ ("catdog" : String).length - 3 ∧
        String.mk (("catdog" : String).data.take i) ∈ ["cat", "dog"] ∧
        String.mk (("catdog" : String).data.drop i) ∈ ["cat", "dog"]) :=
  ⟨by decide, by decide,
    (c3_concat_clause "catdog" ["cat", "dog"] (by decide) (by decide)).1⟩

/-! ### Claim C4 -/

/-- Claim C4: a label that passes every hard rejection but whose full
pattern is missing from a non-empty allowed_run_patterns set receives the
soft score -50 (not -999) together with the computed full pattern. -/
theorem c4_soft_rejection (s0 : String) (st : Settings)
    (h : hard_reject s0 st = false)
    (ha : st.allowed_run_patterns ≠ [])
    (hp : cv_full_pattern (lowerStr s0) ∉ st.allowed_run_patterns) :
    brandability_score s0 st = (-50, cv_full_pattern (lowerStr s0)) := by
  unfold hard_reject at h
  simp only [Bool.or_eq_false_iff, Bool.and_eq_false_iff, decide_eq_false_iff_not,
    Bool.not_eq_true'] at h
  obtain ⟨⟨⟨⟨⟨⟨⟨⟨⟨hh1, hh2⟩, hh3⟩, hh4⟩, hh5⟩, hh6⟩, hh7⟩, hh8⟩, hh9⟩, hh10⟩ := h
  have n4 : ¬(st.reject_dictionary_words = true ∧ lowerStr s0 ∈ st.words) := by
    rintro ⟨hx, hy⟩
    rcases hh4 with h4 | h4
    · exact h4 hx
    · exact h4 hy
  have n6 : ¬(st.strict_brandables = true ∧
      ((lowerStr s0).data.headD ' ' ∈ DISALLOW_START ∨
        (lowerStr s0).data.getLastD ' ' ∈ DISALLOW_END)) := by
    rintro ⟨hx, hy⟩
    rcases hh6 with h6 | h6
    · exact h6 hx
    · exact h6 hy
  have n7 : ¬(st.strict_brandables = true ∧ has_bad_bigram (lowerStr s0).data = true) := by
    rintro ⟨hx, hy⟩
    rcases hh7 with h7 | h7
    · exact h7 hx
    · simp [h7] at hy
  have n8 : ¬(has_triple_repeat (lowerStr s0).data = true) := by simp [hh8]
  have n9 : ¬(st.reject_repeats = true ∧ has_repeated_chunk (lowerStr s0).data 2 3 = true) := by
    rintro ⟨hx, hy⟩
    rcases hh9 with h9 | h9
    · exact h9 hx
    · simp [h9] at hy
  unfold brandability_score brandability_core
  rw [if_neg (by simp [hh1]), if_neg hh2, if_neg hh3, if_neg n4, if_neg hh5,
    if_neg n6, if_neg n7, if_neg n8, if_neg n9, if_neg hh10, if_pos ⟨ha, hp⟩]

theorem c4_soft_rejection_witness :
    hard_reject "brand" settings_cvcv = false ∧
    settings_cvcv.allowed_run_patterns ≠ [] ∧
    cv_full_pattern (lowerStr "brand") ∉ settings_cvcv.allowed_run_patterns ∧
    brandability_score "brand" settings_cvcv = (-50, cv_full_pattern (lowerStr "brand")) :=
  ⟨by decide, by decide, by decide,
    c4_soft_rejection "brand" settings_cvcv (by decide) (by decide) (by decide)⟩

/-! ### Claim C5: helper lemmas relating the regex search to maximal runs -/

theorem leadRun_imp_hasConsRun (l : List Char) (n : Nat) (hn : 1 ≤ n)
    (h : n ≤ leadRun l) : hasConsRun l n = true := by
  cases l with
  | nil => simp [leadRun] at h; omega
  | cons c t =>
    unfold hasConsRun
    simp only [Bool.or_eq_true, decide_eq_true_eq]
    exact Or.inl h

theorem runLengthsAux_exists_iff (l : List Char) :
    ∀ (cur n : Nat), 1 ≤ n →
      ((∃ r ∈ runLengthsAux l cur, n ≤ r) ↔
        (n ≤ cur + leadRun l ∨ hasConsRun l n = true)) := by
  induction l with
  | nil =>
    intro cur n hn
    by_cases hc : cur = 0
    · subst hc
      simp [runLengthsAux, leadRun, hasConsRun]
      omega
    · simp [runLengthsAux, hc, leadRun, hasConsRun]
      omega
  | cons c t ih =>
    intro cur n hn
    by_cases hc : isCons c = true
    · rw [show runLengthsAux (c :: t) cur = runLengthsAux t (cur + 1) by
        simp [runLengthsAux, hc]]
      rw [ih (cur + 1) n hn]
      have hlead : leadRun (c :: t) = leadRun t + 1 := by simp [leadRun, hc]
      rw [show hasConsRun (c :: t) n =
          (decide (n ≤ leadRun (c :: t)) || hasConsRun t n) from rfl, hlead]
      simp only [Bool.or_eq_true, decide_eq_true_eq]
      constructor
      · rintro (h | h)
        · exact Or.inl (by omega)
        · exact Or.inr (Or.inr h)
      · rintro (h | h | h)
        · exact Or.inl (by omega)
        · exact Or.inl (by omega)
        · exact Or.inr h
    · have hlead : leadRun (c :: t) = 0 := by simp [leadRun, hc]
      have hrun : hasConsRun (c :: t) n = hasConsRun t n := by
        rw [show hasConsRun (c :: t) n =
            (decide (n ≤ leadRun (c :: t)) || hasConsRun t n) from rfl, hlead]
        have hd : decide (n ≤ 0) = false := decide_eq_false (by omega)
        rw [hd, Bool.false_or]
      by_cases hcur : cur = 0
      · subst hcur
        rw [show runLengthsAux (c :: t) 0 = runLengthsAux t 0 by
          simp [runLengthsAux, hc]]
        rw [ih 0 n hn, hrun, hlead]
        constructor
        · rintro (h | h)
          · exact Or.inr (leadRun_imp_hasConsRun t n hn (by omega))
          · exact Or.inr h
        · rintro (h | h)
          · omega
          · exact Or.inr h
      · rw [show runLengthsAux (c :: t) cur = cur :: runLengthsAux t 0 by
          simp [runLengthsAux, hc, hcur]]
        rw [hrun, hlead]
        simp only [List.mem_cons]
        constructor
        · rintro ⟨r, (rfl | hr), hnr⟩
          · exact Or.inl (by omega)
          · rcases (ih 0 n hn).mp ⟨r, hr, hnr⟩ with h | h
            · exact Or.inr (leadRun_imp_hasConsRun t n hn (by omega))
            · exact Or.inr h
        · rintro (h | h)
          · exact ⟨cur, Or.inl rfl, by omega⟩
          · obtain ⟨r, hr, hnr⟩ := (ih 0 n hn).mpr (Or.inr h)
            exact ⟨r, Or.inr hr, hnr⟩

theorem hasConsRun_iff_runLengths (l : List Char) (n : Nat) (hn : 1 ≤ n) :
    hasConsRun l n = true ↔ ∃ r ∈ runLengths l, n ≤ r := by
  rw [runLengths, runLengthsAux_exists_iff l 0 n hn]
  constructor
  · exact fun h => Or.inr h
  · rintro (h | h)
    · exact leadRun_imp_hasConsRun l n hn (by omega)
    · exact h

/-- Claim C5: the consonant-run term is -30 exactly when some maximal run
of non-vowel characters is strictly longer than max_consonant_run; when it
is not -30, it is -12 exactly when some maximal run has length exactly
max_consonant_run; and the two penalties never both apply.  The hypothesis
1 ≤ m reflects the configuration surface (max_consonant_run is at least 2). -/
theorem c5_consonant_run_penalty (l : List Char) (m : Nat) (hm : 1 ≤ m) :
    (consonant_run_penalty l m = -30 ↔ ∃ r ∈ runLengths l, m < r) ∧
    (consonant_run_penalty l m ≠ -30 →
      (consonant_run_penalty l m = -12 ↔ m ∈ runLengths l)) ∧
    ¬(consonant_run_penalty l m = -30 ∧ consonant_run_penalty l m = -12) := by
  have h31 := hasConsRun_iff_runLengths l (m + 1) (by omega)
  have h12 := hasConsRun_iff_runLengths l m hm
  have hmlt : ∀ r : Nat, (m < r) ↔ (m + 1 ≤ r) := by omega
  by_cases h1 : hasConsRun l (m + 1) = true
  · have hpen : consonant_run_penalty l m = -30 := by
      unfold consonant_run_penalty; simp [h1]
    refine ⟨?_, ?_, ?_⟩
    · rw [hpen]
      obtain ⟨r, hr, hnr⟩ := h31.mp h1
      exact ⟨fun _ => ⟨r, hr, by omega⟩, fun _ => rfl⟩
    · intro hne; exact absurd hpen hne
    · rintro ⟨-, hc⟩
      rw [hpen] at hc; omega
  · have hnone : ¬ ∃ r ∈ runLengths l, m < r := by
      rintro ⟨r, hr, hmr⟩
      exact h1 (h31.mpr ⟨r, hr, by omega⟩)
    have hall : ∀ r ∈ runLengths l, r ≤ m := by
      intro r hr
      by_contra hcon
      exact hnone ⟨r, hr, by omega⟩
    by_cases h2 : hasConsRun l m = true
    · have hpen : consonant_run_penalty l m = -12 := by
        unfold consonant_run_penalty; simp [h1, h2]
      have hmem : m ∈ runLengths l := by
        obtain ⟨r, hr, hmr⟩ := h12.mp h2
        have : r = m := le_antisymm (hall r hr) hmr
        rwa [this] at hr
      refine ⟨?_, ?_, ?_⟩
      · rw [hpen]
        constructor
        · intro hc; omega
        · intro hc; exact absurd hc hnone
      · intro _
        rw [hpen]
        exact ⟨fun _ => hmem, fun _ => rfl⟩
      · rintro ⟨hc, -⟩
        rw [hpen] at hc; omega
    · have hpen : consonant_run_penalty l m = 0 := by
        unfold consonant_run_penalty; simp [h1, h2]
      have hnmem : m ∉ runLengths l := by
        intro hmem
        exact h2 (h12.mpr ⟨m, hmem, le_refl m⟩)
      refine ⟨?_, ?_, ?_⟩
      · rw [hpen]
        constructor
        · intro hc; omega
        · intro hc; exact absurd hc hnone
      · intro _
        rw [hpen]
        constructor
        · intro hc; omega
        · intro hc; exact absurd hc hnmem
      · rintro ⟨hc, -⟩
        rw [hpen] at hc; omega

theorem c5_consonant_run_penalty_witness :
    (1 ≤ 2) ∧
    ((consonant_run_penalty ("brand").data 2 = -30 ↔
        ∃ r ∈ runLengths ("brand").data, 2 < r) ∧
      (consonant_run_penalty ("brand").data 2 ≠ -30 →
        (consonant_run_penalty ("brand").data 2 = -12 ↔ 2 ∈ runLengths ("brand").data)) ∧
      ¬(consonant_run_penalty ("brand").data 2 = -30 ∧
        consonant_run_penalty ("brand").data 2 = -12)) :=
  ⟨by decide, c5_consonant_run_penalty ("brand").data 2 (by decide)⟩

/-! ### Claim C9: helper bounds for every score term -/

theorem length_bonus_le (n : Nat) : length_bonus n ≤ 12 := by
  unfold length_bonus
  split_ifs <;> omega

theorem vowel_ratio_term_le (l : List Char) (vmin vmax : ℚ) :
    vowel_ratio_term l vmin vmax ≤ 25 := by
  simp only [vowel_ratio_term]
  split_ifs <;> omega

theorem consonant_run_penalty_nonpos (l : List Char) (m : Nat) :
    consonant_run_penalty l m ≤ 0 := by
  unfold consonant_run_penalty
  split_ifs <;> omega

theorem alternation_penalty_nonpos (pat : List Char) : alternation_penalty pat ≤ 0 := by
  unfold alternation_penalty
  split_ifs <;> omega

theorem recipe_bonus_le (p : String) : recipe_bonus p ≤ 6 := by
  unfold recipe_bonus
  split_ifs <;> omega

theorem brandability_accum_le (s : String) (st : Settings) :
    brandability_accum s st ≤ 43 := by
  have b1 := length_bonus_le s.length
  have b2 := vowel_ratio_term_le s.data st.vowel_min st.vowel_max
  have b3 := consonant_run_penalty_nonpos s.data st.max_consonant_run
  have b4 := alternation_penalty_nonpos (cv_full_pattern s).data
  have b5 := recipe_bonus_le (cv_full_pattern s)
  have b6 : (0 : Int) ≤ (rare_count s.data : Int) := Int.natCast_nonneg _
  unfold brandability_accum
  linarith

/-- Every result of the score body is a hard rejection, the soft rejection,
or the accumulated score with the full pattern. -/
theorem brandability_core_cases (s : String) (st : Settings) :
    brandability_core s st = (-999, "") ∨
    brandability_core s st = (-50, cv_full_pattern s) ∨
    brandability_core s st = (brandability_accum s st, cv_full_pattern s) := by
  unfold brandability_core
  by_cases h1 : (!(py_isalpha s)) = true
  · exact Or.inl (if_pos h1)
  rw [if_neg h1]
  by_cases h2 : s.length < st.min_len ∨ st.max_len < s.length
  · exact Or.inl (if_pos h2)
  rw [if_neg h2]
  by_cases h3 : '-' ∈ s.data
  · exact Or.inl (if_pos h3)
  rw [if_neg h3]
  by_cases h4 : st.reject_dictionary_words = true ∧ s ∈ st.words
  · exact Or.inl (if_pos h4)
  rw [if_neg h4]
  by_cases h5 : st.max_rare_letters < rare_count s.data
  · exact Or.inl (if_pos h5)
  rw [if_neg h5]
  by_cases h6 : st.strict_brandables = true ∧
      (s.data.headD ' ' ∈ DISALLOW_START ∨ s.data.getLastD ' ' ∈ DISALLOW_END)
  · exact Or.inl (if_pos h6)
  rw [if_neg h6]
  by_cases h7 : st.strict_brandables = true ∧ has_bad_bigram s.data = true
  · exact Or.inl (if_pos h7)
  rw [if_neg h7]
  by_cases h8 : has_triple_repeat s.data = true
  · exact Or.inl (if_pos h8)
  rw [if_neg h8]
  by_cases h9 : st.reject_repeats = true ∧ has_repeated_chunk s.data 2 3 = true
  · exact Or.inl (if_pos h9)
  rw [if_neg h9]
  by_cases h10 : s.data.dedup.length < st.min_unique_chars
  · exact Or.inl (if_pos h10)
  rw [if_neg h10]
  by_cases h11 : st.allowed_run_patterns ≠ [] ∧ cv_full_pattern s ∉ st.allowed_run_patterns
  · exact Or.inr (Or.inl (if_pos h11))
  rw [if_neg h11]
  exact Or.inr (Or.inr rfl)

theorem brandability_score_le (s0 : String) (st : Settings) :
    (brandability_score s0 st).1 ≤ 43 := by
  unfold brandability_score
  rcases brandability_core_cases (lowerStr s0) st with h | h | h <;> rw [h]
  · show (-999 : Int) ≤ 43; omega
  · show (-50 : Int) ≤ 43; omega
  · show brandability_accum (lowerStr s0) st ≤ 43
    exact brandability_accum_le (lowerStr s0) st

theorem brand_step_high (st : Settings) (h : 43 < st.score_threshold)
    (bs : BrandState) (raw : String) : brand_step st bs raw = bs := by
  unfold brand_step
  cases hsp : get_sld_and_tld raw with
  | none => rfl
  | some p =>
    obtain ⟨sld, tld⟩ := p
    by_cases hmem : (sld ++ "." ++ tld) ∈ bs.seen
    · simp [hmem]
    · have hlt : (brandability_score sld st).1 < st.score_threshold :=
        lt_of_le_of_lt (brandability_score_le sld st) h
      simp [hmem, hlt]

theorem foldl_brand_step_high (st : Settings) (h : 43 < st.score_threshold) :
    ∀ (recs : List String) (bs : BrandState),
      recs.foldl (brand_step st) bs = bs := by
  intro recs
  induction recs with
  | nil => intro bs; rfl
  | cons r t ih =>
    intro bs
    rw [List.foldl_cons, brand_step_high st h, ih]

/-- Claim C9: every brandability score is at most 43 (the sum of the
maximal length bonus 12, vowel bonus 25 and pattern bonus 6; all other
terms are non-positive and the rejection paths return -999 or -50), and
consequently a run whose score threshold exceeds 43 admits no domain at
all: both brandables buckets are empty. -/
theorem c9_score_at_most_43 (s0 : String) (st : Settings)
    (csvRows : String → List (List String)) (files : List FileItem)
    (words : List String) :
    (brandability_score s0 st).1 ≤ 43 ∧
    (43 < st.score_threshold →
      (run_brandables csvRows files words st).1 = [] ∧
      (run_brandables csvRows files words st).2.1 = []) := by
  refine ⟨brandability_score_le s0 st, fun h => ?_⟩
  have hst : ({ st with words := words } : Settings).score_threshold = st.score_threshold :=
    rfl
  have hempty : run_brandables_state csvRows files words st = ⟨[], [], []⟩ := by
    unfold run_brandables_state
    rw [foldl_brand_step_high { st with words := words } (by rw [hst]; exact h)]
  unfold run_brandables
  rw [hempty]
  exact ⟨rfl, rfl⟩

theorem c9_score_at_most_43_witness :
    (brandability_score "nanovian" settings_high).1 ≤ 43 ∧
    ((43 : Int) < settings_high.score_threshold) ∧
    (run_brandables (fun _ => []) [brand_file] c1_words settings_high).1 = [] ∧
    (run_brandables (fun _ => []) [brand_file] c1_words settings_high).2.1 = [] :=
  ⟨(c9_score_at_most_43 "nanovian" settings_high (fun _ => []) [brand_file] c1_words).1,
    by decide,
    (c9_score_at_most_43 "nanovian" settings_high (fun _ => []) [brand_file] c1_words).2
      (by decide)⟩

/-! ### Claims C6 and C7: the run_filter loop refines first-seen filtering -/

theorem first_seen_cons (p : String × String) (A : List (String × String))
    (ks : List String) :
    first_seen_by_full (p :: A) ks =
      if fullOf p ∈ ks then first_seen_by_full A ks
      else p :: first_seen_by_full A (fullOf p :: ks) := rfl

theorem foldl_filter_step_eq (words : List String) (mode : String) :
    ∀ (recs : List String) (st : FilterState),
      recs.foldl (filter_step words mode) st =
        { results_com := st.results_com ++
            ((first_seen_by_full (admitted_stream words mode recs) st.seen).filter
              (fun p => decide (p.2 = "com"))).map fullOf
          results_others := st.results_others ++
            ((first_seen_by_full (admitted_stream words mode recs) st.seen).filter
              (fun p => !(decide (p.2 = "com")))).map fullOf
          seen := ((first_seen_by_full (admitted_stream words mode recs) st.seen).map
              fullOf).reverse ++ st.seen } := by
  intro recs
  induction recs with
  | nil =>
    intro st
    simp [admitted_stream, first_seen_by_full]
  | cons raw t ih =>
    intro st
    rw [List.foldl_cons]
    cases hsp : get_sld_and_tld raw with
    | none =>
      have hstep : filter_step words mode st raw = st := by
        unfold filter_step; rw [hsp]
      have hadm : admitted_stream words mode (raw :: t) = admitted_stream words mode t := by
        unfold admitted_stream
        rw [List.filterMap_cons, hsp]
      rw [hstep, hadm, ih st]
    | some p =>
      obtain ⟨sld, tld⟩ := p
      by_cases hok : matcher_ok words mode sld = true
      · have hadm : admitted_stream words mode (raw :: t) =
            (sld, tld) :: admitted_stream words mode t := by
          unfold admitted_stream
          rw [List.filterMap_cons, hsp]
          simp [hok]
        by_cases hmem : (sld ++ "." ++ tld) ∈ st.seen
        · have hstep : filter_step words mode st raw = st := by
            unfold filter_step
            rw [hsp]
            simp [hmem]
          have hfs : first_seen_by_full (admitted_stream words mode (raw :: t)) st.seen =
              first_seen_by_full (admitted_stream words mode t) st.seen := by
            rw [hadm, first_seen_cons, if_pos (show fullOf (sld, tld) ∈ st.seen from hmem)]
          rw [hstep, hfs]
          exact ih st
        · have hstep : filter_step words mode st raw =
              { results_com :=
                  if tld = "com" then st.results_com ++ [sld ++ "." ++ tld]
                  else st.results_com
                results_others :=
                  if tld = "com" then st.results_others
                  else st.results_others ++ [sld ++ "." ++ tld]
                seen := (sld ++ "." ++ tld) :: st.seen } := by
            unfold filter_step
            rw [hsp]
            simp [hmem, hok]
          have hfs : first_seen_by_full (admitted_stream words mode (raw :: t)) st.seen =
              (sld, tld) :: first_seen_by_full (admitted_stream words mode t)
                ((sld ++ "." ++ tld) :: st.seen) := by
            rw [hadm, first_seen_cons, if_neg (show fullOf (sld, tld) ∉ st.seen from hmem)]
            rfl
          rw [hstep, ih, hfs]
          by_cases hcom : tld = "com"
          · simp [hcom, fullOf, List.filter_cons, List.append_assoc]
          · simp [hcom, fullOf, List.filter_cons, List.append_assoc]
      · have hstep : filter_step words mode st raw = st := by
          unfold filter_step
          rw [hsp]
          simp [hok]
        have hadm : admitted_stream words mode (raw :: t) = admitted_stream words mode t := by
          unfold admitted_stream
          rw [List.filterMap_cons, hsp]
          simp [hok]
        rw [hstep, hadm, ih st]

theorem foldl_brand_step_eq (st : Settings) :
    ∀ (recs : List String) (bs : BrandState),
      recs.foldl (brand_step st) bs =
        { results_com := bs.results_com ++
            ((first_seen_by_full (admitted_brand_stream st recs) bs.seen).filter
              (fun p => decide (p.2 = "com"))).map (brand_item st)
          results_others := bs.results_others ++
            ((first_seen_by_full (admitted_brand_stream st recs) bs.seen).filter
              (fun p => !(decide (p.2 = "com")))).map (brand_item st)
          seen := ((first_seen_by_full (admitted_brand_stream st recs) bs.seen).map
              fullOf).reverse ++ bs.seen } := by
  intro recs
  induction recs with
  | nil =>
    intro bs
    simp [admitted_brand_stream, first_seen_by_full]
  | cons raw t ih =>
    intro bs
    rw [List.foldl_cons]
    cases hsp : get_sld_and_tld raw with
    | none =>
      have hstep : brand_step st bs raw = bs := by
        unfold brand_step; rw [hsp]
      have hadm : admitted_brand_stream st (raw :: t) = admitted_brand_stream st t := by
        unfold admitted_brand_stream
        rw [List.filterMap_cons, hsp]
      rw [hstep, hadm, ih bs]
    | some p =>
      obtain ⟨sld, tld⟩ := p
      by_cases hok : (brandability_score sld st).1 < st.score_threshold
      · have hstep : brand_step st bs raw = bs := by
          unfold brand_step
          rw [hsp]
          simp [hok]
        have hadm : admitted_brand_stream st (raw :: t) = admitted_brand_stream st t := by
          unfold admitted_brand_stream
          rw [List.filterMap_cons, hsp]
          simp [hok]
        rw [hstep, hadm, ih bs]
      · have hadm : admitted_brand_stream st (raw :: t) =
            (sld, tld) :: admitted_brand_stream st t := by
          unfold admitted_brand_stream
          rw [List.filterMap_cons, hsp]
          simp [hok]
        by_cases hmem : (sld ++ "." ++ tld) ∈ bs.seen
        · have hstep : brand_step st bs raw = bs := by
            unfold brand_step
            rw [hsp]
            simp [hmem]
          have hfs : first_seen_by_full (admitted_brand_stream st (raw :: t)) bs.seen =
              first_seen_by_full (admitted_brand_stream st t) bs.seen := by
            rw [hadm, first_seen_cons, if_pos (show fullOf (sld, tld) ∈ bs.seen from hmem)]
          rw [hstep, hfs]
          exact ih bs
        · have hstep : brand_step st bs raw =
              { results_com :=
                  if tld = "com" then bs.results_com ++ [brand_item st (sld, tld)]
                  else bs.results_com
                results_others :=
                  if tld = "com" then bs.results_others
                  else bs.results_others ++ [brand_item st (sld, tld)]
                seen := (sld ++ "." ++ tld) :: bs.seen } := by
            unfold brand_step
            rw [hsp]
            simp [hmem, hok]
            constructor
            · rfl
            · rfl
          have hfs : first_seen_by_full (admitted_brand_stream st (raw :: t)) bs.seen =
              (sld, tld) :: first_seen_by_full (admitted_brand_stream st t)
                ((sld ++ "." ++ tld) :: bs.seen) := by
            rw [hadm, first_seen_cons, if_neg (show fullOf (sld, tld) ∉ bs.seen from hmem)]
            rfl
          rw [hstep, ih, hfs]
          by_cases hcom : tld = "com"
          · simp [hcom, fullOf, List.filter_cons, List.append_assoc]
          · simp [hcom, fullOf, List.filter_cons, List.append_assoc]

/-! ### First occurrences carry pairwise distinct full domains -/

theorem first_seen_nodup :
    ∀ (A : List (String × String)) (ks : List String),
      ((first_seen_by_full A ks).map fullOf).Nodup ∧
      (∀ x ∈ first_seen_by_full A ks, fullOf x ∉ ks) := by
  intro A
  induction A with
  | nil =>
    intro ks
    constructor
    · exact List.nodup_nil
    · intro x hx
      simp [first_seen_by_full] at hx
  | cons p t ih =>
    intro ks
    rw [first_seen_cons]
    by_cases h : fullOf p ∈ ks
    · rw [if_pos h]
      exact ih ks
    · rw [if_neg h]
      obtain ⟨ihn, ihk⟩ := ih (fullOf p :: ks)
      constructor
      · rw [List.map_cons, List.nodup_cons]
        refine ⟨fun hmem => ?_, ihn⟩
        obtain ⟨x, hx, hfx⟩ := List.mem_map.mp hmem
        exact (ihk x hx) (by rw [hfx]; exact List.mem_cons_self _ _)
      · intro x hx
        rcases List.mem_cons.mp hx with rfl | hx'
        · exact h
        · intro hk
          exact (ihk x hx') (List.mem_cons_of_mem _ hk)

/-! ### The final brandables sort: sortedness, permutation and stability -/

theorem sort_desc_sorted (l : List Item) : List.Sorted score_ge (sort_desc l) :=
  List.sorted_insertionSort score_ge l

theorem sort_desc_perm (l : List Item) : (sort_desc l).Perm l :=
  List.perm_insertionSort score_ge l

theorem filter_orderedInsert_score (k : Int) (x : Item) (l : List Item) :
    (List.orderedInsert score_ge x l).filter (fun y => decide (y.2.1 = k)) =
      if x.2.1 = k then x :: l.filter (fun y => decide (y.2.1 = k))
      else l.filter (fun y => decide (y.2.1 = k)) := by
  rw [List.orderedInsert_eq_take_drop]
  by_cases hx : x.2.1 = k
  · rw [if_pos hx, List.filter_append]
    have htake : (List.takeWhile (fun b => decide ¬score_ge x b) l).filter
        (fun y => decide (y.2.1 = k)) = [] := by
      rw [List.filter_eq_nil_iff]
      intro a ha
      have hta := List.mem_takeWhile_imp ha
      simp only [decide_eq_true_eq] at hta ⊢
      unfold score_ge at hta
      omega
    rw [htake, List.filter_cons]
    rw [show (decide (x.2.1 = k)) = true from decide_eq_true hx]
    conv_rhs =>
      rw [show l = List.takeWhile (fun b => decide ¬score_ge x b) l ++
          List.dropWhile (fun b => decide ¬score_ge x b) l from
          (List.takeWhile_append_dropWhile _ _).symm]
    rw [List.filter_append, htake]
    simp
  · rw [if_neg hx, List.filter_append, List.filter_cons]
    rw [show (decide (x.2.1 = k)) = false from decide_eq_false hx]
    conv_rhs =>
      rw [show l = List.takeWhile (fun b => decide ¬score_ge x b) l ++
          List.dropWhile (fun b => decide ¬score_ge x b) l from
          (List.takeWhile_append_dropWhile _ _).symm]
    rw [List.filter_append]
    simp

theorem filter_sort_desc (k : Int) (l : List Item) :
    (sort_desc l).filter (fun y => decide (y.2.1 = k)) =
      l.filter (fun y => decide (y.2.1 = k)) := by
  induction l with
  | nil => rfl
  | cons a t ih =>
    show (List.orderedInsert score_ge a (sort_desc t)).filter _ = _
    rw [filter_orderedInsert_score, List.filter_cons]
    by_cases ha : a.2.1 = k
    · rw [if_pos ha, ih, show (decide (a.2.1 = k)) = true from decide_eq_true ha]
      simp
    · rw [if_neg ha, ih, show (decide (a.2.1 = k)) = false from decide_eq_false ha]
      simp

theorem run_filter_com_eq (csvRows : String → List (List String)) (files : List FileItem)
    (words : List String) (mode : String) :
    (run_filter csvRows files words mode).1 =
      ((first_seen_by_full (admitted_stream words mode (all_records csvRows files)) []).filter
        (fun p => decide (p.2 = "com"))).map fullOf := by
  show ((all_records csvRows files).foldl (filter_step words mode)
      ⟨[], [], []⟩).results_com = _
  rw [foldl_filter_step_eq]
  simp

theorem run_filter_others_eq (csvRows : String → List (List String)) (files : List FileItem)
    (words : List String) (mode : String) :
    (run_filter csvRows files words mode).2.1 =
      ((first_seen_by_full (admitted_stream words mode (all_records csvRows files)) []).filter
        (fun p => !(decide (p.2 = "com")))).map fullOf := by
  show ((all_records csvRows files).foldl (filter_step words mode)
      ⟨[], [], []⟩).results_others = _
  rw [foldl_filter_step_eq]
  simp

theorem run_brandables_state_com_eq (csvRows : String → List (List String))
    (files : List FileItem) (words : List String) (settings : Settings) :
    (run_brandables_state csvRows files words settings).results_com =
      ((first_seen_by_full
          (admitted_brand_stream { settings with words := words }
            (all_records csvRows files)) []).filter
        (fun p => decide (p.2 = "com"))).map
          (brand_item { settings with words := words }) := by
  show ((all_records csvRows files).foldl (brand_step { settings with words := words })
      ⟨[], [], []⟩).results_com = _
  rw [foldl_brand_step_eq]
  simp

theorem run_brandables_state_others_eq (csvRows : String → List (List String))
    (files : List FileItem) (words : List String) (settings : Settings) :
    (run_brandables_state csvRows files words settings).results_others =
      ((first_seen_by_full
          (admitted_brand_stream { settings with words := words }
            (all_records csvRows files)) []).filter
        (fun p => !(decide (p.2 = "com")))).map
          (brand_item { settings with words := words }) := by
  show ((all_records csvRows files).foldl (brand_step { settings with words := words })
      ⟨[], [], []⟩).results_others = _
  rw [foldl_brand_step_eq]
  simp

/-- Claim C6: in every run of any of the three modes, a full domain appears
at most once across the union of the .com bucket and the other bucket. -/
theorem c6_global_dedup (csvRows : String → List (List String)) (files : List FileItem)
    (words : List String) (mode : String) (settings : Settings) :
    ((run_filter csvRows files words mode).1 ++
      (run_filter csvRows files words mode).2.1).Nodup ∧
    (((run_brandables csvRows files words settings).1 ++
      (run_brandables csvRows files words settings).2.1).map (fun x => x.1)).Nodup := by
  constructor
  · rw [run_filter_com_eq, run_filter_others_eq, ← List.map_append]
    have hnodup := (first_seen_nodup
      (admitted_stream words mode (all_records csvRows files)) []).1
    have hperm := (List.filter_append_perm (fun p => decide (p.2 = "com"))
      (first_seen_by_full (admitted_stream words mode (all_records csvRows files)) [])).map
      fullOf
    exact hperm.nodup_iff.mpr hnodup
  · have hnodup := (first_seen_nodup
      (admitted_brand_stream { settings with words := words } (all_records csvRows files))
      []).1
    have hperm := (List.filter_append_perm (fun p => decide (p.2 = "com"))
      (first_seen_by_full
        (admitted_brand_stream { settings with words := words } (all_records csvRows files))
        [])).map fullOf
    have hraw : (((run_brandables_state csvRows files words settings).results_com ++
        (run_brandables_state csvRows files words settings).results_others).map
          (fun x : Item => x.1)).Nodup := by
      rw [run_brandables_state_com_eq, run_brandables_state_others_eq, List.map_append,
        List.map_map, List.map_map,
        show ((fun x : Item => x.1) ∘ brand_item { settings with words := words }) = fullOf
          from funext fun p => rfl,
        ← List.map_append]
      exact hperm.nodup_iff.mpr hnodup
    have hsortperm : ((run_brandables csvRows files words settings).1 ++
        (run_brandables csvRows files words settings).2.1).Perm
        ((run_brandables_state csvRows files words settings).results_com ++
         (run_brandables_state csvRows files words settings).results_others) :=
      (sort_desc_perm _).append (sort_desc_perm _)
    exact ((hsortperm.map (fun x : Item => x.1)).nodup_iff).mpr hraw

/-- Claim C7: exact and broad buckets list admitted domains in first-seen
order (each bucket equals the globally deduplicated admitted stream,
restricted to the bucket, in stream order); the brandables buckets are the
scan buckets sorted by score descending, stably: every bucket is sorted
under score_ge, is a permutation of the corresponding scan bucket, and for
every score value the records of that score appear in exactly their
original scan order. -/
theorem c7_bucket_ordering (csvRows : String → List (List String)) (files : List FileItem)
    (words : List String) (mode : String) (settings : Settings) :
    ((run_filter csvRows files words mode).1 =
      ((first_seen_by_full (admitted_stream words mode (all_records csvRows files)) []).filter
        (fun p => decide (p.2 = "com"))).map fullOf) ∧
    ((run_filter csvRows files words mode).2.1 =
      ((first_seen_by_full (admitted_stream words mode (all_records csvRows files)) []).filter
        (fun p => !(decide (p.2 = "com")))).map fullOf) ∧
    List.Sorted score_ge (run_brandables csvRows files words settings).1 ∧
    List.Sorted score_ge (run_brandables csvRows files words settings).2.1 ∧
    (run_brandables csvRows files words settings).1.Perm
      (run_brandables_state csvRows files words settings).results_com ∧
    (run_brandables csvRows files words settings).2.1.Perm
      (run_brandables_state csvRows files words settings).results_others ∧
    (∀ k : Int,
      (run_brandables csvRows files words settings).1.filter (fun x => decide (x.2.1 = k)) =
        (run_brandables_state csvRows files words settings).results_com.filter
          (fun x => decide (x.2.1 = k))) ∧
    (∀ k : Int,
      (run_brandables csvRows files words settings).2.1.filter (fun x => decide (x.2.1 = k)) =
        (run_brandables_state csvRows files words settings).results_others.filter
          (fun x => decide (x.2.1 = k))) := by
  refine ⟨run_filter_com_eq csvRows files words mode,
    run_filter_others_eq csvRows files words mode,
    sort_desc_sorted _, sort_desc_sorted _,
    sort_desc_perm _, sort_desc_perm _,
    fun k => filter_sort_desc k _, fun k => filter_sort_desc k _⟩

end DomainFilter
